import Mathlib

/-!
Shallow embedding of the m8db register-machine assembler and debugger
(src/parse.rs, src/run.rs).

Machine integers (Rust `usize`) are modelled as `Nat`; where the source
performs arithmetic that can wrap (release-mode two's-complement wraparound
of unsigned subtraction/addition, the behaviour the repository's own notes
describe as "wrap per the host's unsigned-integer semantics"), the model
applies an explicit `% 2 ^ 64`.  Counters that enumerate elements of an
in-memory vector (line indices, statement counters) cannot reach `2 ^ 64`
in the source, so they are plain `Nat`.

Rust `Vec` indexing panics out of bounds; fallible operations are modelled
with `Option`/`Except`, `Option.none` standing for a panic.
-/

set_option maxRecDepth 8000

deriving instance DecidableEq for Except

namespace M8db

/-- Rust `usize` modulus: values are in `[0, 2^64)`. -/
def usizeMod : Nat := 2 ^ 64

/-- Wrapping `x + 1` on usize (`x += 1` in release mode). -/
def wrapAdd1 (x : Nat) : Nat := (x + 1) % usizeMod

/-- Wrapping `x - 1` on usize (`x -= 1` in release mode). -/
def wrapSub1 (x : Nat) : Nat := (x + (usizeMod - 1)) % usizeMod

/-- `Span` (src/parse.rs): zero-based source line index of a statement. -/
structure Span where
  val : Nat
deriving DecidableEq

/-- `Span::line_number` (src/parse.rs): 1-based line number. -/
def Span.line_number (s : Span) : Nat := s.val + 1

/-- `LineNumber` (src/parse.rs): 1-based source line number. -/
structure LineNumber where
  val : Nat
deriving DecidableEq

/-- `LineNumber::span` (src/parse.rs): `Span(self.0 - 1)`; the subtraction is
usize arithmetic, so `LineNumber(0)` wraps. -/
def LineNumber.span (n : LineNumber) : Span := ⟨wrapSub1 n.val⟩

/-- `StmtIdx` (src/parse.rs): an index into a `Vm`'s statement vector. -/
structure StmtIdx where
  val : Nat
deriving DecidableEq

/-- `Register` (src/parse.rs): a register index. -/
structure Register where
  val : Nat
deriving DecidableEq

/-- `Stmt` (src/parse.rs): a fully resolved instruction. -/
inductive Stmt
  | inc (r : Register)
  | dec (r : Register)
  | isZero (r : Register) (t : StmtIdx)
  | jump (t : StmtIdx)
  | stop
deriving DecidableEq

/-- The branch targets stored inside a resolved instruction. -/
def Stmt.targets : Stmt → List StmtIdx
  | .isZero _ t => [t]
  | .jump t => [t]
  | _ => []

/-- `Code` (src/parse.rs): the assembler's output. -/
structure Code where
  stmts : List Stmt
  span : List Span
  code_lines : List String
  file_name : String
deriving DecidableEq

/-- `IrStmt` (src/parse.rs): provisional statements produced by pass 1,
with branch targets still unresolved. -/
inductive IrStmt
  | inc (r : Register)
  | dec (r : Register)
  | isZeroLabel (r : Register) (l : String)
  | isZeroLine (r : Register) (n : LineNumber)
  | jumpLabel (l : String)
  | jumpLine (n : LineNumber)
  | label (l : String)
  | stop
  | none
deriving DecidableEq

/-- `matches!(stmt, IrStmt::None)` used by the filter in `parse`. -/
def IrStmt.isNone : IrStmt → Bool
  | .none => true
  | _ => false

/-- Rust `std::num::IntErrorKind` cases reachable from `usize::from_str`. -/
inductive ParseIntError
  | empty
  | invalidDigit
  | posOverflow
deriving DecidableEq

/-- `ParseErrInner` (src/parse.rs). -/
inductive ParseErrInner
  | outOfBoundsLineRef (n : LineNumber)
  | labelNotFound (l : String)
  | parseIntErr (e : ParseIntError)
  | noRegister
  | noLabelOrLine
  | illegalStmt (s : String)
deriving DecidableEq

/-- `ParseErr` (src/parse.rs): an error anchored to the referencing line. -/
structure ParseErr where
  span : Span
  inner : ParseErrInner
deriving DecidableEq

/-- ASCII whitespace (the whitespace characters occurring in this
repository's line-oriented sources). -/
def isWS (c : Char) : Bool := c = ' ' || c = '\t' || c = '\n' || c = '\r'

/-- Accumulator-based worker for `splitWhitespace`. -/
def splitWSAux (acc : List Char) : List Char → List String
  | [] => if acc.isEmpty then [] else [⟨acc.reverse⟩]
  | c :: cs =>
    if isWS c then
      if acc.isEmpty then splitWSAux [] cs
      else ⟨acc.reverse⟩ :: splitWSAux [] cs
    else splitWSAux (c :: acc) cs

/-- Rust `str::split_whitespace`: maximal non-whitespace runs, in order. -/
def splitWhitespace (s : String) : List String := splitWSAux [] s.data

/-- Worker for `rustLines`. -/
def rustLinesAux (acc : List Char) : List Char → List String
  | [] => if acc.isEmpty then [] else [⟨acc.reverse⟩]
  | c :: cs =>
    if c = '\n' then
      (⟨(if acc.head? = some '\r' then acc.tail else acc).reverse⟩ : String) ::
        rustLinesAux [] cs
    else rustLinesAux (c :: acc) cs

/-- Rust `str::lines`: split at `\n` or `\r\n`, no trailing empty line. -/
def rustLines (s : String) : List String := rustLinesAux [] s.data

/-- Digit-accumulation loop of `usize::from_str`; overflow is checked at
every step against the usize range. -/
def parseDigits : List Char → Nat → Except ParseIntError Nat
  | [], acc => .ok acc
  | c :: cs, acc =>
    if c.isDigit then
      let acc' := acc * 10 + (c.toNat - 48)
      if acc' < usizeMod then parseDigits cs acc' else .error .posOverflow
    else .error .invalidDigit

/-- Rust `str::parse::<usize>`: optional leading `+`, then ASCII digits,
value below `2^64`. -/
def parseUsize (s : String) : Except ParseIntError Nat :=
  match s.data with
  | [] => .error .empty
  | '+' :: rest => if rest.isEmpty then .error .invalidDigit else parseDigits rest 0
  | cs => parseDigits cs 0

/-- `next_register` (src/parse.rs): consume one token and parse it as a
register index; also returns the rest of the token iterator. -/
def next_register (toks : List String) : Except ParseErrInner (Register × List String) :=
  match toks with
  | [] => .error .noRegister
  | t :: rest =>
    match parseUsize t with
    | .ok n => .ok (⟨n⟩, rest)
    | .error e => .error (.parseIntErr e)

/-- `parse_line` (src/parse.rs) minus the span attached to errors: classify
one source line into a provisional statement.  The span argument of the
source function is only used to anchor errors, which `parse_line` below
re-adds via `mapError`. -/
def parse_lineInner (line : String) : Except ParseErrInner IrStmt :=
  match splitWhitespace line with
  | [] => .ok .none
  | first :: rest =>
    match first with
    | "INC" => (next_register rest).map (fun p => .inc p.1)
    | "DEC" => (next_register rest).map (fun p => .dec p.1)
    | "IS_ZERO" =>
      match next_register rest with
      | .error e => .error e
      | .ok (r, rest2) =>
        match rest2 with
        | [] => .error .noLabelOrLine
        | t :: _ =>
          match parseUsize t with
          | .ok n => .ok (.isZeroLine r ⟨n⟩)
          | .error _ => .ok (.isZeroLabel r t)
    | "JUMP" =>
      match rest with
      | [] => .error .noLabelOrLine
      | t :: _ =>
        match parseUsize t with
        | .ok n => .ok (.jumpLine ⟨n⟩)
        | .error _ => .ok (.jumpLabel t)
    | "STOP" => .ok .stop
    | stmt =>
      match stmt.data with
      | '.' :: stripped => .ok (.label ⟨stripped⟩)
      | '#' :: _ => .ok .none
      | _ => .error (.illegalStmt stmt)

/-- `parse_line` (src/parse.rs): classification with errors anchored to the
line's span. -/
def parse_line (span : Span) (line : String) : Except ParseErr IrStmt :=
  (parse_lineInner line).mapError (ParseErr.mk span)

/-- Pass 1 of `parse` (src/parse.rs): walk the lines in order, recording
labels (`HashMap::insert`, i.e. later definitions overwrite earlier ones)
and accumulating provisional statements with their spans.  The label table
is modelled as a function `String → Option StmtIdx`. -/
def pass1 : List String → Nat → (String → Option StmtIdx) → Nat →
    Except ParseErr ((String → Option StmtIdx) × List (IrStmt × Span))
  | [], _, labels, _ => .ok (labels, [])
  | line :: rest, line_index, labels, statement_number =>
    match parse_line ⟨line_index⟩ line with
    | .error e => .error e
    | .ok (.label name) =>
      pass1 rest (line_index + 1)
        (fun k => if k = name then some ⟨statement_number⟩ else labels k)
        statement_number
    | .ok .none => pass1 rest (line_index + 1) labels statement_number
    | .ok stmt =>
      (pass1 rest (line_index + 1) labels (statement_number + 1)).map
        (fun p => (p.1, (stmt, ⟨line_index⟩) :: p.2))

/-- Rust `Iterator::position`: index of the first element satisfying `p`. -/
def position {α : Type} (p : α → Bool) : List α → Option Nat
  | [] => Option.none
  | x :: xs => if p x then some 0 else (position p xs).map (· + 1)

/-- `resolve_line_number` (src/parse.rs): scan the provisional statements
for the first one whose span's 1-based line number exactly equals the
referenced number; fail with an out-of-bounds line reference anchored to
the referencing span otherwise.  (Polymorphic in the statement component,
which the source never inspects.) -/
def resolve_line_number {α : Type} (stmts : List (α × Span)) (number : LineNumber)
    (span : Span) : Except ParseErr StmtIdx :=
  match position (fun p => decide (p.2.line_number = number.val)) stmts with
  | some stmt_number => .ok ⟨stmt_number⟩
  | Option.none => .error ⟨span, .outOfBoundsLineRef number⟩

/-- `resolve_label` (src/parse.rs): look the label up in the table; fail
with label-not-found anchored to the referencing span otherwise. -/
def resolve_label (labels : String → Option StmtIdx) (span : Span) (label : String) :
    Except ParseErr StmtIdx :=
  match labels label with
  | some line => .ok line
  | Option.none => .error ⟨span, .labelNotFound label⟩

/-- Pass 2 of `parse` (src/parse.rs): resolve one provisional statement.
The `label`/`none` arms are `unreachable!()` in the source (such entries
are never pushed to `ir_statements`; see `pass1_no_label_none`). -/
def resolveStmt (labels : String → Option StmtIdx) (ir_statements : List (IrStmt × Span)) :
    IrStmt × Span → Except ParseErr (Stmt × Span)
  | (.inc r, span) => .ok (.inc r, span)
  | (.dec r, span) => .ok (.dec r, span)
  | (.isZeroLine r n, span) =>
    (resolve_line_number ir_statements n span).map (fun t => (.isZero r t, span))
  | (.jumpLine n, span) =>
    (resolve_line_number ir_statements n span).map (fun t => (.jump t, span))
  | (.isZeroLabel r l, span) =>
    (resolve_label labels span l).map (fun t => (.isZero r t, span))
  | (.jumpLabel l, span) =>
    (resolve_label labels span l).map (fun t => (.jump t, span))
  | (.stop, span) => .ok (.stop, span)
  | (.label _, span) => .ok (.stop, span)
  | (.none, span) => .ok (.stop, span)

/-- Rust `Iterator::collect::<Result<Vec<_>, _>>`: left-to-right,
short-circuiting at the first error. -/
def collectExcept {α β ε : Type} : List α → (α → Except ε β) → Except ε (List β)
  | [], _ => .ok []
  | x :: xs, f =>
    match f x with
    | .error e => .error e
    | .ok y => (collectExcept xs f).map (y :: ·)

/-- Pass 1 of `parse` on a whole source text: the label table and the
provisional statement list. -/
def parse_pass1 (text : String) :
    Except ParseErr ((String → Option StmtIdx) × List (IrStmt × Span)) :=
  pass1 (rustLines text) 0 (fun _ => Option.none) 0

/-- The provisional statement list of pass 1 (the `ir_statements` vector). -/
def parse_irs (text : String) : Except ParseErr (List (IrStmt × Span)) :=
  (parse_pass1 text).map (fun p => p.2)

/-- `parse` (src/parse.rs): the whole assembler.  The source stringifies
the error via `Display` at the very end; the model keeps the structured
`ParseErr`. -/
def parse (text : String) (file_name : String) : Except ParseErr Code :=
  let code_lines := rustLines text
  match pass1 code_lines 0 (fun _ => Option.none) 0 with
  | .error e => .error e
  | .ok (labels, ir_statements) =>
    match collectExcept (ir_statements.filter (fun p => !(p.1.isNone)))
        (resolveStmt labels ir_statements) with
    | .error e => .error e
    | .ok resolved =>
      .ok { stmts := resolved.map Prod.fst, span := resolved.map Prod.snd,
            code_lines := code_lines, file_name := file_name }

/-- `VmState` (src/run.rs).  `brk` is the source's `Break` (a Lean keyword). -/
inductive VmState
  | run
  | brk
  | stop
  | outOfBounds
deriving DecidableEq

/-- `Vm` (src/run.rs): the mutable machine state. -/
structure Vm where
  stmts : List Stmt
  span : List Span
  code_lines : List String
  pc : StmtIdx
  registers : List Nat
  breakpoints : List StmtIdx
  file_name : String
deriving DecidableEq

/-- The tail of `Vm::step` (src/run.rs): `self.pc.0 += 1` followed by the
breakpoint check. -/
def Vm.finish_step (vm : Vm) : Vm × VmState :=
  let vm' := { vm with pc := ⟨wrapAdd1 vm.pc.val⟩ }
  (vm', if vm'.pc ∈ vm'.breakpoints then VmState.brk else VmState.run)

/-- `Vm::step` (src/run.rs).  `Option.none` models a panic (register index
out of bounds).  Note the source's `self.pc = StmtIdx(index.0 - 1)`
followed by `self.pc.0 += 1` for the branch instructions. -/
def Vm.step (vm : Vm) : Option (Vm × VmState) :=
  match vm.stmts.get? vm.pc.val with
  | some (.inc r) =>
    match vm.registers.get? r.val with
    | Option.none => Option.none
    | some v => some (Vm.finish_step { vm with registers := vm.registers.set r.val (wrapAdd1 v) })
  | some (.dec r) =>
    match vm.registers.get? r.val with
    | Option.none => Option.none
    | some v => some (Vm.finish_step { vm with registers := vm.registers.set r.val (wrapSub1 v) })
  | some (.isZero r index) =>
    match vm.registers.get? r.val with
    | Option.none => Option.none
    | some v =>
      some (Vm.finish_step (if v = 0 then { vm with pc := ⟨wrapSub1 index.val⟩ } else vm))
  | some (.jump index) => some (Vm.finish_step { vm with pc := ⟨wrapSub1 index.val⟩ })
  | some .stop => some (vm, VmState.stop)
  | Option.none => some (vm, VmState.outOfBounds)

/-- `Vm::run` (src/run.rs): iterate `step` until it yields `Break`, `Stop`
or `OutOfBounds`.  The source loop has no bound; `fuel` bounds the number
of iterations in the model, `Option.none` standing for fuel exhaustion or
a panic inside `step`.  (The timing output is observability only.) -/
def Vm.run_fuel : Nat → Vm → Option (Vm × VmState)
  | 0, _ => Option.none
  | fuel + 1, vm =>
    match vm.step with
    | Option.none => Option.none
    | some (vm', VmState.run) => Vm.run_fuel fuel vm'
    | some (vm', s) => some (vm', s)

/-- `Vm::statement_at_span` (src/run.rs): index of the first statement
whose span is `>=` the searched span. -/
def Vm.statement_at_span (vm : Vm) (search_span : Span) : Option StmtIdx :=
  (position (fun span => decide (search_span.val ≤ span.val)) vm.span).map StmtIdx.mk

/-- `VmRunKind` (src/run.rs). -/
inductive VmRunKind
  | withTime
  | withoutTime
deriving DecidableEq

/-- `VmInstruction` (src/run.rs).  `brk` is the source's `Break`,
`step'`/`run'`/`stop'` the source's `Step`/`Run`/`Stop`. -/
inductive VmInstruction
  | step'
  | run' (k : VmRunKind)
  | brk (i : StmtIdx)
  | set (r : Register) (v : Nat)
  | stop'
deriving DecidableEq

/-- `max_register` (src/run.rs): highest register index referenced. -/
def max_register (stmts : List Stmt) : Nat :=
  ((stmts.map fun s =>
    match s with
    | .inc r => r.val
    | .dec r => r.val
    | .isZero r _ => r.val
    | .jump _ => 0
    | .stop => 0).max?).getD 0

/-- The `Vm` constructed at the top of `run` (src/run.rs): pc 0, one zeroed
register per index up to the highest referenced, no breakpoints. -/
def vm_of_code (code : Code) : Vm :=
  { stmts := code.stmts, span := code.span, code_lines := code.code_lines,
    file_name := code.file_name, pc := ⟨0⟩,
    registers := List.replicate (max_register code.stmts + 1) 0,
    breakpoints := [] }

/-- `parse_set_command` (src/run.rs): two tokens, both parsed as usize. -/
def parse_set_command (args : List String) : Option (Register × Nat) :=
  match args with
  | [] => Option.none
  | reg :: rest =>
    match (parseUsize reg).toOption with
    | Option.none => Option.none
    | some r =>
      match rest with
      | [] => Option.none
      | value :: _ =>
        match (parseUsize value).toOption with
        | Option.none => Option.none
        | some v => some (⟨r⟩, v)

/-- The outcome of one iteration of the `debug_input` loop (src/run.rs):
either the loop printed something (or nothing) and re-prompts with the
machine state untouched (`debug_input` only holds `&Vm`), or it returns a
`VmInstruction` to the `run` loop. -/
inductive DebugOutcome
  | prompt
  | instr (i : VmInstruction)
deriving DecidableEq

/-- One iteration of `debug_input` (src/run.rs) on one input line. -/
def debug_input_line (vm : Vm) (input : String) : DebugOutcome :=
  match splitWhitespace input with
  | [] => .prompt
  | cmd :: rest =>
    if cmd = "r" ∨ cmd = "register" then .prompt
    else if cmd = "p" ∨ cmd = "program" then .prompt
    else if cmd = "h" ∨ cmd = "?" ∨ cmd = "help" then .prompt
    else if cmd = "b" ∨ cmd = "break" then
      match rest with
      | [] => .prompt
      | arg :: _ =>
        match (parseUsize arg).toOption with
        | some line_number =>
          match vm.statement_at_span (LineNumber.span ⟨line_number⟩) with
          | some stmt_pos => .instr (.brk stmt_pos)
          | Option.none => .prompt
        | Option.none => .prompt
    else if cmd = "set" then
      match parse_set_command rest with
      | some (reg, value) => .instr (.set reg value)
      | Option.none => .prompt
    else if cmd = "c" ∨ cmd = "continue" then
      match rest with
      | t :: _ => if t = "time" then .instr (.run' .withTime) else .instr (.run' .withoutTime)
      | [] => .instr (.run' .withoutTime)
    else if cmd = "s" ∨ cmd = "step" then .instr .step'
    else if cmd = "q" ∨ cmd = "quit" then .instr .stop'
    else .prompt

/-- The `VmInstruction::Break` arm of `run` (src/run.rs): toggle the
breakpoint — remove the first occurrence if present, push otherwise. -/
def run_toggle_breakpoint (breakpoints : List StmtIdx) (line : StmtIdx) : List StmtIdx :=
  match position (fun point => decide (point = line)) breakpoints with
  | Option.none => breakpoints ++ [line]
  | some pos => breakpoints.eraseIdx pos

/-- The `VmInstruction::Set` arm of `run` (src/run.rs):
`vm.registers[r.0] = value`, a panic (`Option.none`) when the register
index is out of range of the allocated register vector. -/
def run_apply_set (vm : Vm) (r : Register) (value : Nat) : Option Vm :=
  match vm.registers.get? r.val with
  | Option.none => Option.none
  | some _ => some { vm with registers := vm.registers.set r.val value }

/-! Concrete source texts and machine states used in closed statements. -/

/-- A label defined after the last emitted instruction. -/
def src_label_end : String := "INC 0\nJUMP end\n.end"

/-- A numeric branch operand naming a blank line. -/
def src_blank_jump : String := "INC 0\n\nJUMP 2"

/-- The same label defined twice. -/
def src_dup_label : String := "JUMP x\n.x\nINC 0\n.x\nSTOP"

/-- A program consisting solely of `STOP`. -/
def src_stop : String := "STOP"

/-- A two-instruction program. -/
def src_inc_stop : String := "INC 0\nSTOP"

/-- A display name for assembled programs. -/
def fname : String := "f"

/-- The `Code` assembled from `src_stop`. -/
def stop_code : Code := ⟨[Stmt.stop], [⟨0⟩], [src_stop], fname⟩

/-- The `Code` assembled from `src_inc_stop`. -/
def inc_stop_code : Code := ⟨[Stmt.inc ⟨0⟩, Stmt.stop], [⟨0⟩, ⟨1⟩], ["INC 0", src_stop], fname⟩

/-- A loaded machine for `src_inc_stop`: one allocated register. -/
def vm_small : Vm := vm_of_code inc_stop_code

/-- A machine about to execute `Jump` with target 0. -/
def vm_jump0 : Vm := ⟨[Stmt.jump ⟨0⟩], [⟨0⟩], ["JUMP 1"], ⟨0⟩, [0], [], fname⟩

/-- A machine about to execute `IsZero` with target 0 on a zero register. -/
def vm_isz0 : Vm := ⟨[Stmt.isZero ⟨0⟩ ⟨0⟩], [⟨0⟩], ["IS_ZERO 0 1"], ⟨0⟩, [0], [], fname⟩

/-- A machine about to execute `IsZero` on a nonzero register. -/
def vm_isz1 : Vm := ⟨[Stmt.isZero ⟨0⟩ ⟨0⟩], [⟨0⟩], ["IS_ZERO 0 1"], ⟨0⟩, [3], [], fname⟩

/-- A machine about to execute `Dec` on a zero register. -/
def vm_dec0 : Vm := ⟨[Stmt.dec ⟨0⟩], [⟨0⟩], ["DEC 0"], ⟨0⟩, [0], [], fname⟩

/-- A machine whose program counter is past the last instruction. -/
def vm_oob : Vm := ⟨[Stmt.inc ⟨0⟩], [⟨0⟩], ["INC 0"], ⟨5⟩, [0], [], fname⟩

/-- The debugger input used to exhibit the out-of-range `set`. -/
def set_cmd : String := "set 5 7"

/-- A breakpoint request past every span of `vm_small`. -/
def b5_cmd : String := "b 5"

/-- A breakpoint request resolving to instruction index 1 of `vm_small`. -/
def break2_cmd : String := "break 2"

/-- An unknown debugger command. -/
def bogus_cmd : String := "bogus"

/-- A breakpoint command with a non-numeric argument. -/
def bx_cmd : String := "b x"

/-- A breakpoint command whose line is out of range for `vm_small`. -/
def break99_cmd : String := "b 99"

/-- A malformed `set` command. -/
def setx_cmd : String := "set x 1"

/-- The `Code` assembled from `src_label_end`. -/
def label_end_code : Code :=
  ⟨[Stmt.inc ⟨0⟩, Stmt.jump ⟨2⟩], [⟨0⟩, ⟨1⟩], ["INC 0", "JUMP end", ".end"], fname⟩

/-- The duplicated label name. -/
def lbl_x : String := "x"

/-- Lines before the last definition of `x` in `src_dup_label`. -/
def dup_ls1 : List String := ["JUMP x", ".x", "INC 0"]

/-- The last definition line of `x` in `src_dup_label`. -/
def dup_line : String := ".x"

/-- Lines after the last definition of `x` in `src_dup_label`. -/
def dup_ls2 : List String := ["STOP"]

/-- Pass-1 output for `dup_ls1`. -/
def dup_irs1 : List (IrStmt × Span) := [(.jumpLabel lbl_x, ⟨0⟩), (.inc ⟨0⟩, ⟨2⟩)]

/-- Pass-1 output for all of `src_dup_label`. -/
def dup_irs : List (IrStmt × Span) :=
  [(.jumpLabel lbl_x, ⟨0⟩), (.inc ⟨0⟩, ⟨2⟩), (.stop, ⟨4⟩)]

/-- The label table after `dup_ls1`. -/
def dup_mid_table : String → Option StmtIdx :=
  fun k => if k = lbl_x then some ⟨1⟩ else Option.none

/-- The label table after all of `src_dup_label`: the last definition wins. -/
def dup_label_table : String → Option StmtIdx :=
  fun k => if k = lbl_x then some ⟨2⟩ else if k = lbl_x then some ⟨1⟩ else Option.none

/-- Pass-1 output for `src_inc_stop`. -/
def irs_inc_stop : List (IrStmt × Span) := [(.inc ⟨0⟩, ⟨0⟩), (.stop, ⟨1⟩)]

/-- The `Code` assembled from `src_dup_label`: the jump resolves to the
index recorded by the lexically last definition of `x`. -/
def dup_code : Code :=
  ⟨[Stmt.jump ⟨2⟩, Stmt.inc ⟨0⟩, Stmt.stop], [⟨0⟩, ⟨2⟩, ⟨4⟩],
   ["JUMP x", ".x", "INC 0", ".x", "STOP"], fname⟩

/-- The trailing label name of `src_label_end`. -/
def lbl_end : String := "end"

/-- Pass-1 output for `src_label_end`. -/
def label_end_irs : List (IrStmt × Span) := [(.inc ⟨0⟩, ⟨0⟩), (.jumpLabel lbl_end, ⟨1⟩)]

/-- The label table after `src_label_end`: `end` is bound to 2, the
next-instruction counter after the last emitted instruction. -/
def label_end_table : String → Option StmtIdx :=
  fun k => if k = lbl_end then some ⟨2⟩ else Option.none

/-! ## Helper lemmas -/

theorem position_eq_none_iff {α : Type} (p : α → Bool) (l : List α) :
    position p l = Option.none ↔ ∀ x ∈ l, p x = false := by
  induction l with
  | nil => simp [position]
  | cons x xs ih =>
    by_cases h : p x
    · simp [position, h]
    · simp [position, h, Option.map_eq_none', ih, Bool.not_eq_true]

theorem position_eq_some {α : Type} (p : α → Bool) (l : List α) (i : Nat)
    (h : position p l = some i) :
    ∃ x, l.get? i = some x ∧ p x = true ∧
      ∀ j y, j < i → l.get? j = some y → p y = false := by
  induction l generalizing i with
  | nil => simp [position] at h
  | cons a l ih =>
    by_cases hp : p a
    · simp only [position, hp, if_true] at h
      cases h
      exact ⟨a, rfl, hp, fun j y hj _ => absurd hj (Nat.not_lt_zero j)⟩
    · simp only [position, hp, if_false, Option.map_eq_some', Bool.false_eq_true] at h
      obtain ⟨i', hi', rfl⟩ := h
      obtain ⟨x, hx, hpx, hmin⟩ := ih i' hi'
      refine ⟨x, by simpa using hx, hpx, ?_⟩
      intro j y hj hy
      match j with
      | 0 =>
        simp only [List.get?_cons_zero, Option.some.injEq] at hy
        subst hy
        exact Bool.not_eq_true _ |>.mp hp
      | j + 1 =>
        exact hmin j y (by omega) (by simpa using hy)

theorem position_eq_some_of {α : Type} (p : α → Bool) (l : List α) (i : Nat) (x : α)
    (hx : l.get? i = some x) (hpx : p x = true)
    (hmin : ∀ j y, j < i → l.get? j = some y → p y = false) :
    position p l = some i := by
  induction l generalizing i with
  | nil => simp at hx
  | cons a l ih =>
    match i with
    | 0 =>
      simp only [List.get?_cons_zero, Option.some.injEq] at hx
      subst hx
      simp [position, hpx]
    | i + 1 =>
      have hpa : p a = false := hmin 0 a (Nat.succ_pos i) rfl
      simp only [position, hpa, Bool.false_eq_true, if_false]
      rw [ih i (by simpa using hx)
        (fun j y hj hy => hmin (j + 1) y (by omega) (by simpa using hy))]
      rfl

theorem usizeMod_eq : usizeMod = 18446744073709551616 := by
  unfold usizeMod
  norm_num

theorem wrapAdd1_wrapSub1 (t : Nat) (h : t < usizeMod) : wrapAdd1 (wrapSub1 t) = t := by
  unfold wrapAdd1 wrapSub1
  rw [usizeMod_eq] at *
  omega

theorem wrapSub1_zero : wrapSub1 0 = usizeMod - 1 := by
  unfold wrapSub1
  rw [usizeMod_eq]

theorem wrapSub1_of_pos (n : Nat) (h1 : 1 ≤ n) (h2 : n < usizeMod) : wrapSub1 n = n - 1 := by
  unfold wrapSub1
  rw [usizeMod_eq] at *
  omega

/-! ## C2: Jump and IsZero set the program counter to the stored target -/

/-- C2.  `Vm::step` on `Jump(target)` sets the program counter to exactly
`target` (the source computes `target - 1` then adds 1, with wraparound, so
this also holds at `target = 0`); on `IsZero(r, target)` it sets the program
counter to `target` when `registers[r] == 0` and to the old program counter
plus 1 (usize-wrapped) otherwise.  Registers are untouched in the record
updates below. -/
theorem step_jump_iszero_sets_pc (vm : Vm) (t : StmtIdx) (ht : t.val < usizeMod) :
    (vm.stmts.get? vm.pc.val = some (.jump t) →
      vm.step = some ({ vm with pc := t },
        if t ∈ vm.breakpoints then VmState.brk else VmState.run))
    ∧ (∀ r, vm.stmts.get? vm.pc.val = some (.isZero r t) →
        (vm.registers.get? r.val = some 0 →
          vm.step = some ({ vm with pc := t },
            if t ∈ vm.breakpoints then VmState.brk else VmState.run))
        ∧ (∀ v, vm.registers.get? r.val = some v → v ≠ 0 →
            vm.step = some ({ vm with pc := ⟨(vm.pc.val + 1) % usizeMod⟩ },
              if (⟨(vm.pc.val + 1) % usizeMod⟩ : StmtIdx) ∈ vm.breakpoints then
                VmState.brk else VmState.run))) := by
  obtain ⟨tv⟩ := t
  refine ⟨?_, ?_⟩
  · intro h
    unfold Vm.step
    rw [h]
    show some (Vm.finish_step { vm with pc := ⟨wrapSub1 tv⟩ }) = _
    unfold Vm.finish_step
    rw [wrapAdd1_wrapSub1 tv ht]
  · intro r h
    refine ⟨?_, ?_⟩
    · intro hr
      unfold Vm.step
      rw [h]
      show (match vm.registers.get? r.val with
        | Option.none => Option.none
        | some v => some (Vm.finish_step
            (if v = 0 then { vm with pc := ⟨wrapSub1 tv⟩ } else vm))) = _
      rw [hr]
      show some (Vm.finish_step { vm with pc := ⟨wrapSub1 tv⟩ }) = _
      unfold Vm.finish_step
      rw [wrapAdd1_wrapSub1 tv ht]
    · intro v hv hne
      unfold Vm.step
      rw [h]
      show (match vm.registers.get? r.val with
        | Option.none => Option.none
        | some v => some (Vm.finish_step
            (if v = 0 then { vm with pc := ⟨wrapSub1 tv⟩ } else vm))) = _
      rw [hv]
      show some (Vm.finish_step (if v = 0 then { vm with pc := ⟨wrapSub1 tv⟩ } else vm)) = _
      rw [if_neg hne]
      rfl

/-- Witness for C2: a machine whose sole instruction is `Jump 0` steps to
program counter 0, and `IsZero` with target 0 on a zero register does the
same; on a nonzero register the program counter advances to 1. -/
theorem step_jump_iszero_sets_pc_witness :
    (vm_jump0.step = some ({ vm_jump0 with pc := ⟨0⟩ }, VmState.run))
    ∧ (vm_isz0.step = some ({ vm_isz0 with pc := ⟨0⟩ }, VmState.run))
    ∧ (vm_isz1.step = some ({ vm_isz1 with pc := ⟨1 % usizeMod⟩ }, VmState.run)) := by
  refine ⟨?_, ?_, ?_⟩
  · exact ((step_jump_iszero_sets_pc vm_jump0 ⟨0⟩ (by decide)).1
      (by decide)).trans (by decide)
  · exact (((step_jump_iszero_sets_pc vm_isz0 ⟨0⟩ (by decide)).2
      ⟨0⟩ (by decide)).1 (by decide)).trans (by decide)
  · exact (((step_jump_iszero_sets_pc vm_isz1 ⟨0⟩ (by decide)).2
      ⟨0⟩ (by decide)).2 3 (by decide) (by decide)).trans (by decide)

/-! ## C4: Dec on a zero register wraps and advances -/

/-- C4.  `Vm::step` on `Dec(r)` with `registers[r] == 0` does not fail: the
register wraps to the maximum representable usize value `2^64 - 1` and the
program counter advances by 1 (usize-wrapped). -/
theorem step_dec_zero_wraps (vm : Vm) (r : Register)
    (hs : vm.stmts.get? vm.pc.val = some (.dec r))
    (hr : vm.registers.get? r.val = some 0) :
    vm.step = some ({ vm with
                      registers := vm.registers.set r.val (usizeMod - 1),
                      pc := ⟨(vm.pc.val + 1) % usizeMod⟩ },
      if (⟨(vm.pc.val + 1) % usizeMod⟩ : StmtIdx) ∈ vm.breakpoints then
        VmState.brk else VmState.run) := by
  unfold Vm.step
  rw [hs]
  show (match vm.registers.get? r.val with
    | Option.none => Option.none
    | some v => some (Vm.finish_step
        { vm with registers := vm.registers.set r.val (wrapSub1 v) })) = _
  rw [hr]
  show some (Vm.finish_step { vm with registers := vm.registers.set r.val (wrapSub1 0) }) = _
  unfold Vm.finish_step
  rw [wrapSub1_zero]
  rfl

/-- Witness for C4: decrementing the zeroed register of `vm_dec0` yields
`2^64 - 1` and program counter 1. -/
theorem step_dec_zero_wraps_witness :
    vm_dec0.step = some ({ vm_dec0 with
                           registers := [usizeMod - 1],
                           pc := ⟨1 % usizeMod⟩ }, VmState.run) :=
  (step_dec_zero_wraps vm_dec0 ⟨0⟩ (by decide) (by decide)).trans (by decide)

/-! ## C8: Stop and OutOfBounds are effect-free -/

/-- C8.  `Vm::step` at a `Stop` instruction returns `Stopped` with the whole
machine state (program counter and registers included) unchanged; with the
program counter beyond the last instruction it returns `OutOfBounds`, also
leaving the state unchanged.  A program consisting solely of `STOP`
assembles to one instruction, and its freshly loaded machine yields
`Stopped` from the first `step`/`run` call with its registers still zero. -/
theorem step_stop_oob_frame :
    (∀ vm : Vm, vm.stmts.get? vm.pc.val = some .stop → vm.step = some (vm, VmState.stop))
    ∧ (∀ vm : Vm, vm.stmts.length ≤ vm.pc.val → vm.step = some (vm, VmState.outOfBounds))
    ∧ parse src_stop fname = .ok stop_code
    ∧ (vm_of_code stop_code).step = some (vm_of_code stop_code, VmState.stop)
    ∧ (vm_of_code stop_code).run_fuel 1 = some (vm_of_code stop_code, VmState.stop)
    ∧ (vm_of_code stop_code).registers = [0] := by
  refine ⟨?_, ?_, by decide, by decide, by decide, by decide⟩
  · intro vm h
    simp only [Vm.step, h]
  · intro vm h
    simp only [Vm.step, List.get?_eq_none.mpr h]

/-- Witness for C8: the `Stop` and `OutOfBounds` cases evaluated on
concrete machines. -/
theorem step_stop_oob_frame_witness :
    (vm_of_code stop_code).step = some (vm_of_code stop_code, VmState.stop)
    ∧ vm_oob.step = some (vm_oob, VmState.outOfBounds) :=
  ⟨step_stop_oob_frame.1 (vm_of_code stop_code) (by decide),
   step_stop_oob_frame.2.1 vm_oob (by decide)⟩

/-! ## C9: breakpoint toggling -/

theorem run_toggle_breakpoint_of_not_mem (B : List StmtIdx) (i : StmtIdx) (h : i ∉ B) :
    run_toggle_breakpoint B i = B ++ [i] := by
  unfold run_toggle_breakpoint
  rw [(position_eq_none_iff _ B).mpr]
  intro x hx
  simp only [decide_eq_false_iff_not]
  intro hxi
  exact h (hxi ▸ hx)

theorem run_toggle_breakpoint_mem_iff (B : List StmtIdx) (i : StmtIdx)
    (hnd : B.Nodup) (hi : i ∈ B) :
    ∀ j, j ∈ run_toggle_breakpoint B i ↔ j ∈ B ∧ j ≠ i := by
  induction B with
  | nil => cases hi
  | cons a B ih =>
    by_cases ha : a = i
    · subst ha
      have hnotin : a ∉ B := (List.nodup_cons.mp hnd).1
      have : run_toggle_breakpoint (a :: B) a = B := by
        unfold run_toggle_breakpoint
        simp [position]
      rw [this]
      intro j
      constructor
      · intro hj
        refine ⟨List.mem_cons_of_mem a hj, ?_⟩
        rintro rfl
        exact hnotin hj
      · rintro ⟨hj, hne⟩
        rcases List.mem_cons.mp hj with rfl | hj
        · exact absurd rfl hne
        · exact hj
    · have hiB : i ∈ B := by
        rcases List.mem_cons.mp hi with rfl | h
        · exact absurd rfl ha
        · exact h
      have hndB : B.Nodup := (List.nodup_cons.mp hnd).2
      obtain ⟨q, hq⟩ : ∃ q, position (fun point => decide (point = i)) B = some q := by
        rcases h : position (fun point => decide (point = i)) B with _ | q
        · exact absurd (((position_eq_none_iff _ B).mp h) i hiB) (by simp)
        · exact ⟨q, rfl⟩
      have hcons : run_toggle_breakpoint (a :: B) i = a :: run_toggle_breakpoint B i := by
        unfold run_toggle_breakpoint
        simp only [position, decide_eq_true_eq, if_neg ha, hq, Option.map_some']
        rfl
      rw [hcons]
      intro j
      rw [List.mem_cons, ih hndB hiB j, List.mem_cons]
      constructor
      · rintro (rfl | ⟨hj, hne⟩)
        · exact ⟨Or.inl rfl, ha⟩
        · exact ⟨Or.inr hj, hne⟩
      · rintro ⟨rfl | hj, hne⟩
        · exact Or.inl rfl
        · exact Or.inr ⟨hj, hne⟩

/-- C9.  The `VmInstruction::Break` arm of `run` toggles: on a
duplicate-free breakpoint list (the only kind the loop ever builds), a
present index is removed, an absent one is appended, other indices are
untouched, and toggling twice restores the original membership. -/
theorem breakpoint_toggle_involution (B : List StmtIdx) (i : StmtIdx) (hnd : B.Nodup) :
    (i ∈ B → i ∉ run_toggle_breakpoint B i)
    ∧ (i ∉ B → i ∈ run_toggle_breakpoint B i)
    ∧ (∀ j, j ≠ i → (j ∈ run_toggle_breakpoint B i ↔ j ∈ B))
    ∧ (∀ j, j ∈ run_toggle_breakpoint (run_toggle_breakpoint B i) i ↔ j ∈ B) := by
  refine ⟨?_, ?_, ?_, ?_⟩
  · intro hi hmem
    exact ((run_toggle_breakpoint_mem_iff B i hnd hi i).mp hmem).2 rfl
  · intro hni
    rw [run_toggle_breakpoint_of_not_mem B i hni]
    simp
  · intro j hne
    by_cases hi : i ∈ B
    · rw [run_toggle_breakpoint_mem_iff B i hnd hi j]
      exact ⟨fun h => h.1, fun h => ⟨h, hne⟩⟩
    · rw [run_toggle_breakpoint_of_not_mem B i hi, List.mem_append, List.mem_singleton]
      exact ⟨fun h => h.resolve_right hne, Or.inl⟩
  · by_cases hi : i ∈ B
    · have h1 := run_toggle_breakpoint_mem_iff B i hnd hi
      have hnotin : i ∉ run_toggle_breakpoint B i := fun hmem => ((h1 i).mp hmem).2 rfl
      rw [run_toggle_breakpoint_of_not_mem _ i hnotin]
      intro j
      rw [List.mem_append, List.mem_singleton, h1 j]
      constructor
      · rintro (⟨hj, _⟩ | rfl)
        · exact hj
        · exact hi
      · intro hj
        by_cases hji : j = i
        · exact Or.inr hji
        · exact Or.inl ⟨hj, hji⟩
    · have ht1 : run_toggle_breakpoint B i = B ++ [i] :=
        run_toggle_breakpoint_of_not_mem B i hi
      rw [ht1]
      have hnd2 : (B ++ [i]).Nodup := by
        rw [List.nodup_append]
        exact ⟨hnd, List.nodup_singleton i, by
          intro a ha hai
          rw [List.mem_singleton] at hai
          exact hi (hai ▸ ha)⟩
      have hmem2 : i ∈ B ++ [i] := by simp
      intro j
      rw [run_toggle_breakpoint_mem_iff _ i hnd2 hmem2 j, List.mem_append,
        List.mem_singleton]
      constructor
      · rintro ⟨hj | rfl, hne⟩
        · exact hj
        · exact absurd rfl hne
      · intro hj
        exact ⟨Or.inl hj, fun h => hi (h ▸ hj)⟩

/-! ## Assembler lemmas -/

theorem except_map_ok {ε α β : Type} (f : α → β) (x : Except ε α) (b : β)
    (h : x.map f = .ok b) : ∃ a, x = .ok a ∧ b = f a := by
  cases x with
  | error e => simp [Except.map] at h
  | ok a =>
    refine ⟨a, rfl, ?_⟩
    simp only [Except.map] at h
    cases h
    rfl

theorem except_map_map {ε α β γ : Type} (f : α → β) (g : β → γ) (x : Except ε α) :
    (x.map f).map g = x.map (fun a => g (f a)) := by
  cases x <;> rfl

theorem parse_line_ok_iff (sp : Span) (l : String) (x : IrStmt) :
    parse_line sp l = .ok x ↔ parse_lineInner l = .ok x := by
  unfold parse_line
  cases parse_lineInner l <;> simp [Except.mapError]

theorem pass1_cons (line : String) (rest : List String) (i c : Nat)
    (L : String → Option StmtIdx) :
    pass1 (line :: rest) i L c =
      match parse_line ⟨i⟩ line with
      | .error e => .error e
      | .ok (.label name) =>
        pass1 rest (i + 1) (fun k => if k = name then some ⟨c⟩ else L k) c
      | .ok .none => pass1 rest (i + 1) L c
      | .ok stmt =>
        (pass1 rest (i + 1) L (c + 1)).map (fun p => (p.1, (stmt, ⟨i⟩) :: p.2)) := rfl

theorem collectExcept_forall2 {α β ε : Type} (l : List α) (f : α → Except ε β)
    (res : List β) (h : collectExcept l f = .ok res) :
    List.Forall₂ (fun a b => f a = .ok b) l res := by
  induction l generalizing res with
  | nil =>
    unfold collectExcept at h
    cases h
    exact List.Forall₂.nil
  | cons x xs ih =>
    unfold collectExcept at h
    rcases hfx : f x with e | y <;> rw [hfx] at h
    · simp at h
    · obtain ⟨res', hres', rfl⟩ := except_map_ok _ _ _ h
      exact List.Forall₂.cons hfx (ih res' hres')

theorem forall2_mem_right {α β : Type} {R : α → β → Prop} {l : List α} {res : List β}
    (h : List.Forall₂ R l res) : ∀ b ∈ res, ∃ a ∈ l, R a b := by
  induction h with
  | nil => intro b hb; cases hb
  | cons hab _ ih =>
    intro b hb
    rcases List.mem_cons.mp hb with rfl | hb
    · exact ⟨_, List.mem_cons_self _ _, hab⟩
    · obtain ⟨a, ha, har⟩ := ih b hb
      exact ⟨a, List.mem_cons_of_mem _ ha, har⟩

theorem resolveStmt_snd (labels : String → Option StmtIdx)
    (irs : List (IrStmt × Span)) (q : IrStmt × Span) (b : Stmt × Span)
    (h : resolveStmt labels irs q = .ok b) : b.2 = q.2 := by
  obtain ⟨s, sp⟩ := q
  cases s <;> simp only [resolveStmt] at h
  case inc r => cases h; rfl
  case dec r => cases h; rfl
  case isZeroLabel r l =>
    obtain ⟨a, _, rfl⟩ := except_map_ok _ _ _ h
    rfl
  case isZeroLine r n =>
    obtain ⟨a, _, rfl⟩ := except_map_ok _ _ _ h
    rfl
  case jumpLabel l =>
    obtain ⟨a, _, rfl⟩ := except_map_ok _ _ _ h
    rfl
  case jumpLine n =>
    obtain ⟨a, _, rfl⟩ := except_map_ok _ _ _ h
    rfl
  case label l => cases h; rfl
  case stop => cases h; rfl
  case none => cases h; rfl

theorem forall2_resolve_snd (labels : String → Option StmtIdx)
    (irs l : List (IrStmt × Span)) (res : List (Stmt × Span))
    (h : List.Forall₂ (fun a b => resolveStmt labels irs a = .ok b) l res) :
    res.map Prod.snd = l.map Prod.snd := by
  induction h with
  | nil => rfl
  | cons hab htl ih =>
    simp only [List.map_cons, ih, List.cons.injEq, and_true]
    exact resolveStmt_snd _ _ _ _ hab

theorem pass1_no_none (ls : List String) (i c : Nat) (L L' : String → Option StmtIdx)
    (irs : List (IrStmt × Span)) (h : pass1 ls i L c = .ok (L', irs)) :
    ∀ q ∈ irs, q.1.isNone = false := by
  induction ls generalizing i c L L' irs with
  | nil =>
    unfold pass1 at h
    cases h
    intro q hq
    cases hq
  | cons line rest ih =>
    rw [pass1_cons] at h
    rcases hp : parse_line ⟨i⟩ line with e | st <;> rw [hp] at h
    · simp at h
    · cases st
      case label name => exact ih _ _ _ _ _ h
      case none => exact ih _ _ _ _ _ h
      all_goals
        obtain ⟨⟨L2, irs2⟩, hp2, heq⟩ := except_map_ok _ _ _ h
        rw [Prod.mk.injEq] at heq
        obtain ⟨rfl, rfl⟩ := heq
        intro q hq
        rcases List.mem_cons.mp hq with rfl | hq2
        · rfl
        · exact ih _ _ _ _ _ hp2 q hq2

theorem pass1_spans (ls : List String) (i c : Nat) (L L' : String → Option StmtIdx)
    (irs : List (IrStmt × Span)) (h : pass1 ls i L c = .ok (L', irs)) :
    (∀ q ∈ irs, i ≤ q.2.val) ∧ List.Pairwise (fun a b : IrStmt × Span => a.2.val < b.2.val) irs := by
  induction ls generalizing i c L L' irs with
  | nil =>
    unfold pass1 at h
    cases h
    exact ⟨fun q hq => absurd hq (List.not_mem_nil q), List.Pairwise.nil⟩
  | cons line rest ih =>
    rw [pass1_cons] at h
    rcases hp : parse_line ⟨i⟩ line with e | st <;> rw [hp] at h
    · simp at h
    · cases st
      case label name =>
        obtain ⟨hb, hpw⟩ := ih _ _ _ _ _ h
        exact ⟨fun q hq => le_trans (Nat.le_succ i) (hb q hq), hpw⟩
      case none =>
        obtain ⟨hb, hpw⟩ := ih _ _ _ _ _ h
        exact ⟨fun q hq => le_trans (Nat.le_succ i) (hb q hq), hpw⟩
      all_goals
        obtain ⟨⟨L2, irs2⟩, hp2, heq⟩ := except_map_ok _ _ _ h
        rw [Prod.mk.injEq] at heq
        obtain ⟨rfl, rfl⟩ := heq
        obtain ⟨hb, hpw⟩ := ih _ _ _ _ _ hp2
        refine ⟨?_, ?_⟩
        · intro q hq
          rcases List.mem_cons.mp hq with rfl | hq2
          · exact le_refl i
          · exact le_trans (Nat.le_succ i) (hb q hq2)
        · exact List.Pairwise.cons
            (fun q hq => lt_of_lt_of_le (Nat.lt_succ_self i) (hb q hq)) hpw

theorem pass1_label_bound (ls : List String) (i c : Nat)
    (L L' : String → Option StmtIdx) (irs : List (IrStmt × Span))
    (h : pass1 ls i L c = .ok (L', irs))
    (hL : ∀ nm k, L nm = some k → k.val ≤ c) :
    ∀ nm k, L' nm = some k → k.val ≤ c + irs.length := by
  induction ls generalizing i c L L' irs with
  | nil =>
    unfold pass1 at h
    cases h
    intro nm k hk
    simpa using hL nm k hk
  | cons line rest ih =>
    rw [pass1_cons] at h
    rcases hp : parse_line ⟨i⟩ line with e | st <;> rw [hp] at h
    · simp at h
    · cases st
      case label name =>
        refine ih _ _ _ _ _ h ?_
        intro nm k hk
        by_cases hn : nm = name
        · subst hn
          simp only [if_pos rfl] at hk
          cases hk
          exact le_refl c
        · rw [if_neg hn] at hk
          exact hL nm k hk
      case none => exact ih _ _ _ _ _ h hL
      all_goals
        obtain ⟨⟨L2, irs2⟩, hp2, heq⟩ := except_map_ok _ _ _ h
        rw [Prod.mk.injEq] at heq
        obtain ⟨rfl, rfl⟩ := heq
        intro nm k hk
        have := ih _ _ _ _ _ hp2
          (fun nm' k' hk' => le_trans (hL nm' k' hk') (Nat.le_succ c)) nm k hk
        simp only [List.length_cons]
        omega

theorem pass1_labels_of_no_def (ls : List String) (i c : Nat)
    (L L' : String → Option StmtIdx) (irs : List (IrStmt × Span)) (name : String)
    (h : pass1 ls i L c = .ok (L', irs))
    (hno : ∀ l ∈ ls, parse_lineInner l ≠ .ok (.label name)) :
    L' name = L name := by
  induction ls generalizing i c L L' irs with
  | nil =>
    unfold pass1 at h
    cases h
    rfl
  | cons line rest ih =>
    rw [pass1_cons] at h
    rcases hp : parse_line ⟨i⟩ line with e | st <;> rw [hp] at h
    · simp at h
    · cases st
      case label nm =>
        have hne : nm ≠ name := by
          intro hEq
          subst hEq
          exact hno line (List.mem_cons_self _ _) ((parse_line_ok_iff _ _ _).mp hp)
        have := ih _ _ _ _ _ h (fun l hl => hno l (List.mem_cons_of_mem _ hl))
        rw [this, if_neg (Ne.symm hne)]
      case none => exact ih _ _ _ _ _ h (fun l hl => hno l (List.mem_cons_of_mem _ hl))
      all_goals
        obtain ⟨⟨L2, irs2⟩, hp2, heq⟩ := except_map_ok _ _ _ h
        rw [Prod.mk.injEq] at heq
        obtain ⟨rfl, rfl⟩ := heq
        exact ih _ _ _ _ _ hp2 (fun l hl => hno l (List.mem_cons_of_mem _ hl))

theorem pass1_append (as bs : List String) (i c : Nat) (L : String → Option StmtIdx) :
    pass1 (as ++ bs) i L c =
      match pass1 as i L c with
      | .error e => .error e
      | .ok (L1, irs1) =>
        (pass1 bs (i + as.length) L1 (c + irs1.length)).map
          (fun p => (p.1, irs1 ++ p.2)) := by
  induction as generalizing i c L with
  | nil =>
    show pass1 bs i L c = (pass1 bs (i + 0) L (c + 0)).map (fun p => (p.1, [] ++ p.2))
    rcases h : pass1 bs i L c with e | p
    · rw [show i + 0 = i from rfl, show c + 0 = c from rfl, h]
      rfl
    · rw [show i + 0 = i from rfl, show c + 0 = c from rfl, h]
      simp [Except.map]
  | cons a as ih =>
    rw [List.cons_append, pass1_cons, pass1_cons]
    rcases hp : parse_line ⟨i⟩ a with e | st
    · simp only [hp]
    · cases st
      case label name =>
        simp only [hp]
        rw [ih]
        rcases h1 : pass1 as (i + 1)
            (fun k => if k = name then some ⟨c⟩ else L k) c with e | ⟨L1, irs1⟩ <;>
          simp only [h1]
        rw [show i + 1 + as.length = i + (a :: as).length by
          rw [List.length_cons]; omega]
      case none =>
        simp only [hp]
        rw [ih]
        rcases h1 : pass1 as (i + 1) L c with e | ⟨L1, irs1⟩ <;> simp only [h1]
        rw [show i + 1 + as.length = i + (a :: as).length by
          rw [List.length_cons]; omega]
      all_goals
        simp only [hp]
        rw [ih]
        rcases h1 : pass1 as (i + 1) L (c + 1) with e | ⟨L1, irs1⟩ <;>
          simp only [h1, Except.map]
        simp only [List.length_cons]
        rw [show i + (as.length + 1) = i + 1 + as.length by omega,
          show c + (irs1.length + 1) = c + 1 + irs1.length by omega]
        rcases h2 : pass1 bs (i + 1 + as.length) L1 (c + 1 + irs1.length) with e2 | v <;>
          simp only [h2]
        all_goals rfl

theorem pass1_nonemitting (ls : List String) (i c : Nat)
    (L L' : String → Option StmtIdx) (irs : List (IrStmt × Span))
    (h : pass1 ls i L c = .ok (L', irs))
    (hne : ∀ l ∈ ls, (∃ nm, parse_lineInner l = .ok (.label nm)) ∨
      parse_lineInner l = .ok IrStmt.none) :
    irs = [] := by
  induction ls generalizing i c L L' irs with
  | nil =>
    unfold pass1 at h
    cases h
    rfl
  | cons line rest ih =>
    rw [pass1_cons] at h
    rcases hne line (List.mem_cons_self _ _) with ⟨nm, hlab⟩ | hnone
    · have hpl : parse_line ⟨i⟩ line = .ok (.label nm) := (parse_line_ok_iff _ _ _).mpr hlab
      simp only [hpl] at h
      exact ih _ _ _ _ _ h (fun l hl => hne l (List.mem_cons_of_mem _ hl))
    · have hpn : parse_line ⟨i⟩ line = .ok IrStmt.none := (parse_line_ok_iff _ _ _).mpr hnone
      simp only [hpn] at h
      exact ih _ _ _ _ _ h (fun l hl => hne l (List.mem_cons_of_mem _ hl))

/-- Witness for C9: toggling index 1 into `[0]` and toggling it twice. -/
theorem breakpoint_toggle_involution_witness :
    ((⟨1⟩ : StmtIdx) ∈ ([⟨0⟩] : List StmtIdx) →
      (⟨1⟩ : StmtIdx) ∉ run_toggle_breakpoint [⟨0⟩] ⟨1⟩)
    ∧ ((⟨1⟩ : StmtIdx) ∉ ([⟨0⟩] : List StmtIdx) →
      (⟨1⟩ : StmtIdx) ∈ run_toggle_breakpoint [⟨0⟩] ⟨1⟩)
    ∧ (∀ j, j ≠ ⟨1⟩ → (j ∈ run_toggle_breakpoint [⟨0⟩] ⟨1⟩ ↔ j ∈ ([⟨0⟩] : List StmtIdx)))
    ∧ (∀ j, j ∈ run_toggle_breakpoint (run_toggle_breakpoint [⟨0⟩] ⟨1⟩) ⟨1⟩ ↔
        j ∈ ([⟨0⟩] : List StmtIdx)) :=
  breakpoint_toggle_involution [⟨0⟩] ⟨1⟩ (by decide)

theorem parse_ok_elim (text fn : String) (code : Code) (h : parse text fn = .ok code) :
    ∃ labels irs resolved,
      pass1 (rustLines text) 0 (fun _ => Option.none) 0 = .ok (labels, irs)
      ∧ collectExcept irs (resolveStmt labels irs) = .ok resolved
      ∧ code.stmts = resolved.map Prod.fst
      ∧ code.span = resolved.map Prod.snd
      ∧ code.code_lines = rustLines text
      ∧ code.file_name = fn := by
  unfold parse at h
  rcases hp : pass1 (rustLines text) 0 (fun _ => Option.none) 0 with e | ⟨labels, irs⟩ <;>
    simp only [hp] at h
  · exact Except.noConfusion h
  · have hfilter : irs.filter (fun p => !(p.1.isNone)) = irs := by
      refine List.filter_eq_self.mpr ?_
      intro q hq
      rw [pass1_no_none _ _ _ _ _ _ hp q hq]
      rfl
    rw [hfilter] at h
    rcases hc : collectExcept irs (resolveStmt labels irs) with e | resolved <;>
      simp only [hc] at h
    · exact Except.noConfusion h
    · cases h
      exact ⟨labels, irs, resolved, rfl, hc, rfl, rfl, rfl, rfl⟩

theorem parse_stmts_length (text fn : String) (code : Code)
    (labels : String → Option StmtIdx) (irs : List (IrStmt × Span))
    (hparse : parse text fn = .ok code) (hpass : parse_pass1 text = .ok (labels, irs)) :
    code.stmts.length = irs.length := by
  obtain ⟨labels', irs', resolved, hp, hc, hstmts, _, _, _⟩ := parse_ok_elim text fn code hparse
  unfold parse_pass1 at hpass
  rw [hp] at hpass
  simp only [Except.ok.injEq, Prod.mk.injEq] at hpass
  obtain ⟨_, rfl⟩ := hpass
  rw [hstmts, List.length_map]
  exact ((collectExcept_forall2 _ _ _ hc).length_eq).symm

/-! ## C1: branch-target validity -/

/-- Counterexample to C1 as stated: the source `src_label_end` assembles
successfully, yet the stored `Jump` target 2 is not a valid index into the
two-instruction program (it is one past the end): the trailing label
recorded the next-instruction counter after the last emitted instruction. -/
theorem label_past_end_target_out_of_range :
    parse src_label_end fname = .ok label_end_code
    ∧ Stmt.jump ⟨2⟩ ∈ label_end_code.stmts
    ∧ ¬(2 < label_end_code.stmts.length) := by decide

theorem parse_targets_le_length_aux (text fn : String) (code : Code)
    (h : parse text fn = .ok code) :
    ∀ s ∈ code.stmts, ∀ t ∈ s.targets, t.val ≤ code.stmts.length := by
  obtain ⟨labels, irs, resolved, hp, hc, hstmts, hspan, _, _⟩ := parse_ok_elim text fn code h
  have hf2 := collectExcept_forall2 _ _ _ hc
  have hlen : resolved.length = irs.length := hf2.length_eq.symm
  have hbound : ∀ nm k, labels nm = some k → k.val ≤ irs.length := by
    have hb := pass1_label_bound _ _ _ _ _ _ hp (fun nm k hk => nomatch hk)
    simpa using hb
  intro s hs t ht
  rw [hstmts] at hs
  obtain ⟨pr, hpr, rfl⟩ := List.mem_map.mp hs
  obtain ⟨q, hqmem, hres⟩ := forall2_mem_right hf2 pr hpr
  rw [hstmts, List.length_map, hlen]
  obtain ⟨qs, qsp⟩ := q
  cases qs <;> simp only [resolveStmt] at hres
  case inc r =>
    cases hres
    simp [Stmt.targets] at ht
  case dec r =>
    cases hres
    simp [Stmt.targets] at ht
  case stop =>
    cases hres
    simp [Stmt.targets] at ht
  case label l =>
    cases hres
    simp [Stmt.targets] at ht
  case none =>
    cases hres
    simp [Stmt.targets] at ht
  case isZeroLine r n =>
    obtain ⟨t', hrl, rfl⟩ := except_map_ok _ _ _ hres
    simp only [Stmt.targets, List.mem_singleton] at ht
    subst ht
    unfold resolve_line_number at hrl
    rcases hpos : position (fun p => decide (p.2.line_number = n.val)) irs with _ | k
    · rw [hpos] at hrl
      exact Except.noConfusion hrl
    · rw [hpos] at hrl
      simp only [Except.ok.injEq] at hrl
      subst hrl
      obtain ⟨x, hx, _, _⟩ := position_eq_some _ _ _ hpos
      obtain ⟨hlt, _⟩ := List.get?_eq_some.mp hx
      exact le_of_lt hlt
  case jumpLine n =>
    obtain ⟨t', hrl, rfl⟩ := except_map_ok _ _ _ hres
    simp only [Stmt.targets, List.mem_singleton] at ht
    subst ht
    unfold resolve_line_number at hrl
    rcases hpos : position (fun p => decide (p.2.line_number = n.val)) irs with _ | k
    · rw [hpos] at hrl
      exact Except.noConfusion hrl
    · rw [hpos] at hrl
      simp only [Except.ok.injEq] at hrl
      subst hrl
      obtain ⟨x, hx, _, _⟩ := position_eq_some _ _ _ hpos
      obtain ⟨hlt, _⟩ := List.get?_eq_some.mp hx
      exact le_of_lt hlt
  case isZeroLabel r l =>
    obtain ⟨t', hrl, rfl⟩ := except_map_ok _ _ _ hres
    simp only [Stmt.targets, List.mem_singleton] at ht
    subst ht
    unfold resolve_label at hrl
    rcases hl : labels l with _ | k
    · rw [hl] at hrl
      exact Except.noConfusion hrl
    · rw [hl] at hrl
      simp only [Except.ok.injEq] at hrl
      subst hrl
      exact hbound l _ hl
  case jumpLabel l =>
    obtain ⟨t', hrl, rfl⟩ := except_map_ok _ _ _ hres
    simp only [Stmt.targets, List.mem_singleton] at ht
    subst ht
    unfold resolve_label at hrl
    rcases hl : labels l with _ | k
    · rw [hl] at hrl
      exact Except.noConfusion hrl
    · rw [hl] at hrl
      simp only [Except.ok.injEq] at hrl
      subst hrl
      exact hbound l _ hl

/-- C1 as amended.  (1) Every branch target stored in a resolved
instruction is at most the length of the instruction sequence.  (2) A
target resolved from a numeric line reference over the pass-1 statement
list of a successful assembly is always a strictly valid index.  (3) A
label whose definition line lies after the last emitted instruction (every
later line is a label or blank/comment line) resolves to exactly the
length, one past the end. -/
theorem parse_targets_le_length :
    (∀ (text fn : String) (code : Code), parse text fn = .ok code →
      ∀ s ∈ code.stmts, ∀ t ∈ s.targets, t.val ≤ code.stmts.length)
    ∧ (∀ (text fn : String) (code : Code) (irs : List (IrStmt × Span))
        (n : LineNumber) (sp : Span) (i : StmtIdx),
        parse text fn = .ok code → parse_irs text = .ok irs →
        resolve_line_number irs n sp = .ok i → i.val < code.stmts.length)
    ∧ (∀ (text fn : String) (code : Code) (ls1 : List String) (line : String)
        (ls2 : List String) (name : String) (labels : String → Option StmtIdx)
        (irs : List (IrStmt × Span)) (sp : Span),
        parse text fn = .ok code →
        rustLines text = ls1 ++ line :: ls2 →
        parse_lineInner line = .ok (.label name) →
        (∀ l ∈ ls2, (∃ nm, parse_lineInner l = .ok (.label nm)) ∨
          parse_lineInner l = .ok IrStmt.none) →
        (∀ l ∈ ls2, parse_lineInner l ≠ .ok (.label name)) →
        parse_pass1 text = .ok (labels, irs) →
        resolve_label labels sp name = .ok ⟨code.stmts.length⟩) := by
  refine ⟨?_, ?_, ?_⟩
  · intro text fn code h
    exact parse_targets_le_length_aux text fn code h
  · intro text fn code irs n sp i hparse hirs hres
    obtain ⟨labels, irs', resolved, hp, hc, hstmts, _, _, _⟩ :=
      parse_ok_elim text fn code hparse
    have hirs' : irs' = irs := by
      unfold parse_irs parse_pass1 at hirs
      rw [hp] at hirs
      simp [Except.map] at hirs
      exact hirs
    subst hirs'
    have hlen : code.stmts.length = irs'.length := by
      rw [hstmts, List.length_map]
      exact ((collectExcept_forall2 _ _ _ hc).length_eq).symm
    rw [hlen]
    unfold resolve_line_number at hres
    rcases hpos : position (fun p => decide (p.2.line_number = n.val)) irs' with _ | k
    · rw [hpos] at hres
      exact Except.noConfusion hres
    · rw [hpos] at hres
      simp only [Except.ok.injEq] at hres
      subst hres
      obtain ⟨x, hx, _, _⟩ := position_eq_some _ _ _ hpos
      exact (List.get?_eq_some.mp hx).1
  · intro text fn code ls1 line ls2 name labels irs sp hparse hsplit hlab hnonemit hnodef hpass
    have hlen := parse_stmts_length text fn code labels irs hparse hpass
    unfold parse_pass1 at hpass
    rw [hsplit, pass1_append] at hpass
    rcases h1 : pass1 ls1 0 (fun _ => Option.none) 0 with e | ⟨Lmid, irs1⟩
    · rw [h1] at hpass
      exact Except.noConfusion hpass
    · rw [h1] at hpass
      obtain ⟨⟨L2, irs2⟩, hp2, heq⟩ := except_map_ok _ _ _ hpass
      rw [Prod.mk.injEq] at heq
      obtain ⟨rfl, rfl⟩ := heq
      rw [pass1_cons] at hp2
      have hpl : parse_line ⟨0 + ls1.length⟩ line = .ok (.label name) :=
        (parse_line_ok_iff _ _ _).mpr hlab
      simp only [hpl] at hp2
      have hnil : irs2 = [] := pass1_nonemitting _ _ _ _ _ _ hp2 hnonemit
      subst hnil
      have hname := pass1_labels_of_no_def _ _ _ _ _ _ _ hp2 hnodef
      unfold resolve_label
      rw [hname, if_pos rfl]
      rw [List.append_nil] at hlen
      rw [hlen, Nat.zero_add]

/-- Witness for the amended C1 at the counterexample program
`src_label_end`: the stored target 2 lies within the amended bound, a
numeric resolution over `src_inc_stop` yields a strictly valid index, and
the trailing label `end` resolves to exactly the program length 2. -/
theorem parse_targets_le_length_witness :
    (⟨2⟩ : StmtIdx).val ≤ label_end_code.stmts.length
    ∧ (⟨0⟩ : StmtIdx).val < inc_stop_code.stmts.length
    ∧ resolve_label label_end_table ⟨1⟩ lbl_end = .ok ⟨2⟩ :=
  ⟨parse_targets_le_length.1 src_label_end fname label_end_code (by decide)
     (Stmt.jump ⟨2⟩) (by decide) ⟨2⟩ (by decide),
   parse_targets_le_length.2.1 src_inc_stop fname inc_stop_code irs_inc_stop
     ⟨1⟩ ⟨0⟩ ⟨0⟩ (by decide) (by decide) (by decide),
   parse_targets_le_length.2.2 src_label_end fname label_end_code
     ["INC 0", "JUMP end"] ".end" [] lbl_end label_end_table label_end_irs ⟨1⟩
     (by decide) (by decide) (by decide)
     (fun l hl => absurd hl (List.not_mem_nil l)) (by decide) rfl⟩

/-! ## C5: round-trip addressing -/

/-- C5.  For every instruction index `i` of an assembled program, resolving
the 1-based line number of its source span as a numeric branch target (the
scan a `JUMP`/`IS_ZERO` operand performs over the same pass-1 statement
list) yields exactly `i`. -/
theorem span_line_number_roundtrip (text fn : String) (irs : List (IrStmt × Span))
    (code : Code) (h1 : parse_irs text = .ok irs) (h2 : parse text fn = .ok code)
    (i : Nat) (sp : Span) (hsp : code.span.get? i = some sp) (rsp : Span) :
    resolve_line_number irs ⟨sp.line_number⟩ rsp = .ok ⟨i⟩ := by
  obtain ⟨labels, irs', resolved, hp, hc, hstmts, hspan, _, _⟩ := parse_ok_elim text fn code h2
  have hirs : irs' = irs := by
    unfold parse_irs parse_pass1 at h1
    rw [hp] at h1
    simp [Except.map] at h1
    exact h1
  subst hirs
  have hspans : code.span = irs'.map Prod.snd := by
    rw [hspan, forall2_resolve_snd _ _ _ _ (collectExcept_forall2 _ _ _ hc)]
  rw [hspans] at hsp
  rw [List.get?_map] at hsp
  obtain ⟨q, hq, hq2⟩ := Option.map_eq_some'.mp hsp
  obtain ⟨_, hpw⟩ := pass1_spans _ _ _ _ _ _ hp
  unfold resolve_line_number
  rw [position_eq_some_of _ _ i q hq]
  · rw [hq2]
    simp
  · intro j y hj hy
    obtain ⟨hjlt, hjget⟩ := List.get?_eq_some.mp hy
    obtain ⟨hilt, higet⟩ := List.get?_eq_some.mp hq
    have hlt : y.2.val < q.2.val := by
      have := List.pairwise_iff_get.mp hpw ⟨j, hjlt⟩ ⟨i, hilt⟩ hj
      rw [hjget, higet] at this
      exact this
    rw [← hq2]
    simp only [Span.line_number, decide_eq_false_iff_not]
    omega

/-- Witness for C5 on `src_inc_stop`: the second instruction's span (line 2)
resolves back to index 1. -/
theorem span_line_number_roundtrip_witness :
    resolve_line_number irs_inc_stop ⟨2⟩ ⟨0⟩ = .ok ⟨1⟩ :=
  span_line_number_roundtrip src_inc_stop fname irs_inc_stop inc_stop_code
    (by decide) (by decide) 1 ⟨1⟩ (by decide) ⟨0⟩

/-! ## C7: numeric line references resolve by exact match or fail -/

/-- C7.  A numeric branch operand resolves only by exact equality with the
1-based line number of some emitted instruction's span; when no emitted
instruction originates from that line, resolution fails with an
out-of-bounds line reference carrying the referenced number, anchored to
the referencing span.  Concretely, `JUMP 2` where line 2 is blank fails
assembly with that diagnostic anchored to line 3 (span 2) and naming
line 2. -/
theorem line_ref_exact_match_or_error :
    (∀ (stmts : List (IrStmt × Span)) (n : LineNumber) (sp : Span) (i : StmtIdx),
      resolve_line_number stmts n sp = .ok i →
        ∃ q, stmts.get? i.val = some q ∧ q.2.line_number = n.val)
    ∧ (∀ (stmts : List (IrStmt × Span)) (n : LineNumber) (sp : Span),
        (∀ q ∈ stmts, q.2.line_number ≠ n.val) →
        resolve_line_number stmts n sp = .error ⟨sp, .outOfBoundsLineRef n⟩)
    ∧ parse src_blank_jump fname = .error ⟨⟨2⟩, .outOfBoundsLineRef ⟨2⟩⟩ := by
  refine ⟨?_, ?_, by decide⟩
  · intro stmts n sp i h
    unfold resolve_line_number at h
    rcases hpos : position (fun p => decide (p.2.line_number = n.val)) stmts with _ | k
    · rw [hpos] at h
      exact Except.noConfusion h
    · rw [hpos] at h
      simp only [Except.ok.injEq] at h
      subst h
      obtain ⟨q, hq, hpq, _⟩ := position_eq_some _ _ _ hpos
      exact ⟨q, hq, of_decide_eq_true hpq⟩
  · intro stmts n sp hnone
    unfold resolve_line_number
    rw [(position_eq_none_iff _ _).mpr ?_]
    intro q hq
    exact decide_eq_false (hnone q hq)

/-- Witness for C7: exact-match success on `irs_inc_stop` at line 1, and
failure at the instruction-free line 5. -/
theorem line_ref_exact_match_or_error_witness :
    (∃ q, irs_inc_stop.get? (0 : Nat) = some q ∧ q.2.line_number = 1)
    ∧ resolve_line_number irs_inc_stop ⟨5⟩ ⟨2⟩ = .error ⟨⟨2⟩, .outOfBoundsLineRef ⟨5⟩⟩ :=
  ⟨line_ref_exact_match_or_error.1 irs_inc_stop ⟨1⟩ ⟨0⟩ ⟨0⟩ (by decide),
   line_ref_exact_match_or_error.2.1 irs_inc_stop ⟨5⟩ ⟨2⟩ (by decide)⟩

/-! ## C10: duplicate labels are legal and the last definition wins -/

/-- C10.  `parse` records labels with `HashMap::insert`, so a name defined
twice raises no error: whenever the line list splits as
`ls1 ++ line :: ls2` with `line` defining `name` and no definition of
`name` in `ls2`, every reference to `name` resolves to the statement
counter recorded at that lexically last definition (the counter reached
after `ls1`, i.e. `c + irs1.length`).  Concretely, `src_dup_label` defines
`x` twice, assembles successfully, and its `JUMP x` targets index 2, the
value recorded by the second definition. -/
theorem duplicate_label_last_wins :
    (∀ (ls1 ls2 : List String) (line name : String) (i c : Nat)
       (L0 Lmid Lfin : String → Option StmtIdx)
       (irs1 irs : List (IrStmt × Span)) (sp : Span),
       parse_lineInner line = .ok (.label name) →
       (∀ l ∈ ls2, parse_lineInner l ≠ .ok (.label name)) →
       pass1 ls1 i L0 c = .ok (Lmid, irs1) →
       pass1 (ls1 ++ line :: ls2) i L0 c = .ok (Lfin, irs) →
       resolve_label Lfin sp name = .ok ⟨c + irs1.length⟩)
    ∧ parse src_dup_label fname = .ok dup_code := by
  refine ⟨?_, by decide⟩
  intro ls1 ls2 line name i c L0 Lmid Lfin irs1 irs sp hline hno h1 h2
  rw [pass1_append, h1] at h2
  obtain ⟨⟨L2, irs2⟩, hp2, heq⟩ := except_map_ok _ _ _ h2
  rw [Prod.mk.injEq] at heq
  obtain ⟨rfl, rfl⟩ := heq
  rw [pass1_cons] at hp2
  have hpl : parse_line ⟨i + ls1.length⟩ line = .ok (.label name) :=
    (parse_line_ok_iff _ _ _).mpr hline
  simp only [hpl] at hp2
  have hfin := pass1_labels_of_no_def _ _ _ _ _ _ _ hp2 hno
  unfold resolve_label
  rw [hfin, if_pos rfl]

/-- Witness for C10 on `src_dup_label`'s line split: the reference to `x`
resolves to index 2, recorded by the second (last) definition. -/
theorem duplicate_label_last_wins_witness :
    resolve_label dup_label_table ⟨0⟩ lbl_x = .ok ⟨2⟩ :=
  duplicate_label_last_wins.1 dup_ls1 dup_ls2 dup_line lbl_x 0 0
    (fun _ => Option.none) dup_mid_table dup_label_table dup_irs1 dup_irs ⟨0⟩
    (by decide) (by decide) rfl rfl

/-! ## C6: breakpoint translation takes the first span at or past the line -/

/-- C6.  For a requested breakpoint line `L ≥ 1`, `Vm::statement_at_span`
yields the index of the first instruction whose span's 1-based line number
is `≥ L` — both directions: a returned index is the first qualifying one,
and whenever index `i` is the first whose span qualifies (so a request on
a comment/blank/label line maps to the next emitted instruction),
translation returns exactly `i`.  When no span qualifies it yields
nothing, and the `break` command then only prints an out-of-bounds message
and re-prompts (the breakpoint list, owned by the `run` loop, is untouched
since no `VmInstruction` is issued and `debug_input` only reads the
machine).  When a span qualifies, the command returns the breakpoint
toggle instruction at the translated index. -/
theorem breakpoint_translation (vm : Vm) (L : Nat) (h1 : 1 ≤ L) (h2 : L < usizeMod) :
    (∀ i : Nat, vm.statement_at_span (LineNumber.span ⟨L⟩) = some ⟨i⟩ →
       ∃ sp, vm.span.get? i = some sp ∧ L ≤ sp.line_number ∧
         ∀ j sp', j < i → vm.span.get? j = some sp' → sp'.line_number < L)
    ∧ (∀ (i : Nat) (sp : Span), vm.span.get? i = some sp → L ≤ sp.line_number →
        (∀ j sp', j < i → vm.span.get? j = some sp' → sp'.line_number < L) →
        vm.statement_at_span (LineNumber.span ⟨L⟩) = some ⟨i⟩)
    ∧ ((∀ sp ∈ vm.span, sp.line_number < L) →
        vm.statement_at_span (LineNumber.span ⟨L⟩) = Option.none)
    ∧ (∀ input arg rest, splitWhitespace input = "b" :: arg :: rest →
        parseUsize arg = .ok L → (∀ sp ∈ vm.span, sp.line_number < L) →
        debug_input_line vm input = .prompt)
    ∧ (∀ input arg rest i, splitWhitespace input = "break" :: arg :: rest →
        parseUsize arg = .ok L → vm.statement_at_span (LineNumber.span ⟨L⟩) = some i →
        debug_input_line vm input = .instr (.brk i)) := by
  have hwv : (LineNumber.span ⟨L⟩).val = L - 1 := by
    show wrapSub1 L = L - 1
    exact wrapSub1_of_pos L h1 h2
  have key2 : (∀ sp ∈ vm.span, sp.line_number < L) →
      vm.statement_at_span (LineNumber.span ⟨L⟩) = Option.none := by
    intro hall
    unfold Vm.statement_at_span
    rw [(position_eq_none_iff _ _).mpr ?_]
    · rfl
    · intro sp hsp
      refine decide_eq_false ?_
      have := hall sp hsp
      simp only [Span.line_number] at this
      rw [hwv]
      omega
  refine ⟨?_, ?_, key2, ?_, ?_⟩
  case refine_2 =>
    intro i sp hsp hge hfirst
    unfold Vm.statement_at_span
    rw [position_eq_some_of _ _ i sp hsp ?_ ?_]
    · rfl
    · refine decide_eq_true ?_
      rw [hwv]
      simp only [Span.line_number] at hge
      omega
    · intro j sp' hj hsp'
      refine decide_eq_false ?_
      have := hfirst j sp' hj hsp'
      simp only [Span.line_number] at this
      rw [hwv]
      omega
  · intro i hi
    unfold Vm.statement_at_span at hi
    obtain ⟨k, hk, hmk⟩ := Option.map_eq_some'.mp hi
    have hki : k = i := congrArg StmtIdx.val hmk
    subst hki
    obtain ⟨x, hx, hpx, hmin⟩ := position_eq_some _ _ _ hk
    refine ⟨x, hx, ?_, ?_⟩
    · have := of_decide_eq_true hpx
      rw [hwv] at this
      simp only [Span.line_number]
      omega
    · intro j sp' hj hsp'
      have := hmin j sp' hj hsp'
      rw [decide_eq_false_iff_not, hwv] at this
      simp only [Span.line_number]
      omega
  · intro input arg rest htoks hargL hall
    simp only [debug_input_line, htoks]
    rw [if_neg (by decide), if_neg (by decide), if_neg (by decide), if_pos (by decide)]
    have htop : (parseUsize arg).toOption = some L := by rw [hargL]; rfl
    simp only [htop, key2 hall]
  · intro input arg rest i htoks hargL hsome
    simp only [debug_input_line, htoks]
    rw [if_neg (by decide), if_neg (by decide), if_neg (by decide), if_pos (by decide)]
    have htop : (parseUsize arg).toOption = some L := by rw [hargL]; rfl
    simp only [htop, hsome]

/-- Witness for C6 on `vm_small` (spans at lines 1 and 2): index 1 is the
first whose span's line is `≥ 2` and translation returns exactly it,
toggling via `break 2` issues that instruction, and line 5 is past every
span, so `b 5` only re-prompts. -/
theorem breakpoint_translation_witness :
    (∃ sp, vm_small.span.get? 1 = some sp ∧ 2 ≤ sp.line_number ∧
      ∀ j sp', j < 1 → vm_small.span.get? j = some sp' → sp'.line_number < 2)
    ∧ vm_small.statement_at_span (LineNumber.span ⟨2⟩) = some ⟨1⟩
    ∧ debug_input_line vm_small b5_cmd = .prompt
    ∧ debug_input_line vm_small break2_cmd = .instr (.brk ⟨1⟩) :=
  ⟨(breakpoint_translation vm_small 2 (by decide) (by decide)).1 1 (by decide),
   (breakpoint_translation vm_small 2 (by decide) (by decide)).2.1 1 ⟨1⟩
     (by decide) (by decide)
     (by
       intro j sp' hj hsp'
       have hj0 : j = 0 := Nat.lt_one_iff.mp hj
       subst hj0
       have h0 : vm_small.span.get? 0 = some (⟨0⟩ : Span) := by decide
       rw [h0] at hsp'
       cases hsp'
       decide),
   (breakpoint_translation vm_small 5 (by decide) (by decide)).2.2.2.1 b5_cmd
     (String.mk ['5']) [] (by decide) (by decide) (by decide),
   (breakpoint_translation vm_small 2 (by decide) (by decide)).2.2.2.2 break2_cmd
     (String.mk ['2']) [] ⟨1⟩ (by decide) (by decide) (by decide)⟩

/-! ## C3: per-command user errors are local and non-fatal — except `set` -/

/-- Counterexample to C3 as stated: on a machine with a single allocated
register, the syntactically well-formed but out-of-range command
`set 5 7` is not rejected at the prompt — `debug_input` returns the `Set`
instruction, and the `run` loop's `vm.registers[5] = 7` assignment indexes
out of bounds (a panic that terminates the session), contradicting the
claim that an out-of-range `set` only produces a message and re-prompts. -/
theorem set_out_of_range_panics :
    debug_input_line vm_small set_cmd = .instr (.set ⟨5⟩ 7)
    ∧ run_apply_set vm_small ⟨5⟩ 7 = Option.none := by decide

/-- C3 as amended.  A bad command, a non-numeric breakpoint argument, an
out-of-range breakpoint line, or a malformed `set` (wrong arity or
non-numeric tokens) is local and non-fatal: `debug_input` prints only a
message and re-prompts (`DebugOutcome.prompt`), leaving the machine state
untouched (it only holds a shared reference).  A well-formed `set` whose
register index is outside the allocated register vector is excluded: it is
dispatched to the `run` loop, whose assignment panics
(`set_out_of_range_panics`). -/
theorem debug_errors_local_prompt (vm : Vm) (input : String) :
    (∀ cmd rest, splitWhitespace input = cmd :: rest →
      cmd ∉ (["r", "register", "p", "program", "h", "?", "help", "b", "break",
        "set", "c", "continue", "s", "step", "q", "quit"] : List String) →
      debug_input_line vm input = .prompt)
    ∧ (∀ cmd arg rest, splitWhitespace input = cmd :: arg :: rest →
        (cmd = "b" ∨ cmd = "break") → (parseUsize arg).toOption = Option.none →
        debug_input_line vm input = .prompt)
    ∧ (∀ cmd arg rest n, splitWhitespace input = cmd :: arg :: rest →
        (cmd = "b" ∨ cmd = "break") → parseUsize arg = .ok n →
        vm.statement_at_span (LineNumber.span ⟨n⟩) = Option.none →
        debug_input_line vm input = .prompt)
    ∧ (∀ rest, splitWhitespace input = "set" :: rest →
        parse_set_command rest = Option.none →
        debug_input_line vm input = .prompt) := by
  refine ⟨?_, ?_, ?_, ?_⟩
  · intro cmd rest htoks hmem
    simp only [debug_input_line, htoks]
    rw [if_neg (by rintro (rfl | rfl) <;> simp at hmem),
      if_neg (by rintro (rfl | rfl) <;> simp at hmem),
      if_neg (by rintro (rfl | rfl | rfl) <;> simp at hmem),
      if_neg (by rintro (rfl | rfl) <;> simp at hmem),
      if_neg (by rintro rfl; simp at hmem),
      if_neg (by rintro (rfl | rfl) <;> simp at hmem),
      if_neg (by rintro (rfl | rfl) <;> simp at hmem),
      if_neg (by rintro (rfl | rfl) <;> simp at hmem)]
  · intro cmd arg rest htoks hbc hparse
    rcases hbc with rfl | rfl <;>
    · simp only [debug_input_line, htoks]
      rw [if_neg (by decide), if_neg (by decide), if_neg (by decide), if_pos (by decide)]
      simp only [hparse]
  · intro cmd arg rest n htoks hbc hargn hnone
    have htop : (parseUsize arg).toOption = some n := by rw [hargn]; rfl
    rcases hbc with rfl | rfl <;>
    · simp only [debug_input_line, htoks]
      rw [if_neg (by decide), if_neg (by decide), if_neg (by decide), if_pos (by decide)]
      simp only [htop, hnone]
  · intro rest htoks hset
    simp only [debug_input_line, htoks]
    rw [if_neg (by decide), if_neg (by decide), if_neg (by decide), if_neg (by decide),
      if_pos trivial]
    simp only [hset]

/-- Witness for the amended C3 on `vm_small`: an unknown command, a
non-numeric breakpoint argument, an out-of-range breakpoint line and a
malformed `set` each merely re-prompt. -/
theorem debug_errors_local_prompt_witness :
    debug_input_line vm_small bogus_cmd = .prompt
    ∧ debug_input_line vm_small bx_cmd = .prompt
    ∧ debug_input_line vm_small break99_cmd = .prompt
    ∧ debug_input_line vm_small setx_cmd = .prompt :=
  ⟨(debug_errors_local_prompt vm_small bogus_cmd).1 (String.mk ['b', 'o', 'g', 'u', 's'])
     [] (by decide) (by decide),
   (debug_errors_local_prompt vm_small bx_cmd).2.1 (String.mk ['b']) (String.mk ['x'])
     [] (by decide) (Or.inl rfl) (by decide),
   (debug_errors_local_prompt vm_small break99_cmd).2.2.1 (String.mk ['b'])
     (String.mk ['9', '9']) [] 99 (by decide) (Or.inl rfl) (by decide) (by decide),
   (debug_errors_local_prompt vm_small setx_cmd).2.2.2
     [String.mk ['x'], String.mk ['1']] (by decide) (by decide)⟩

end M8db
